import Mathlib

/-!
Verification of the HashCap repository (`src/hash_bruteforcer.py`).

Python strings are embedded as lists of Unicode code points (`PyStr := List Nat`);
`pstr` converts a Lean string literal to this representation.  The hashlib
primitives (MD5, the named algorithms of `hashlib.algorithms_available`) are
opaque external functions, so they are fields of a `HashEnv` record: `md5Hex`
is `hashlib.md5(..).hexdigest()`, `compute` is the `getattr(hashlib, algo)` /
`hashlib.new(algo)` digest path (`none` models a raised exception, absorbed by
the outer `try/except` of `get_hash`), and `custom` is the process-global
`custom_hash_function` slot.  The cooperative `self.running` flag, which is
cleared from another thread, is embedded as a schedule `Sched := Option Nat`:
`some k` means the next `k` reads of the flag return `True` and every later
read returns `False`; `none` means the flag is never cleared.  Every
interleaving of a single `stop()` call with the worker corresponds to some
`k`, so quantifying over schedules quantifies over all cancellation timings.
-/

/-- Python strings as lists of Unicode code points. -/
abbrev PyStr : Type := List Nat

/-- Conversion from a Lean string literal to the embedded representation. -/
def pstr (s : String) : PyStr := s.data.map Char.toNat

/-- ASCII lowercasing of one code point, as `str.lower` acts on A-Z. -/
def lowerCp (n : Nat) : Nat := if 65 ≤ n ∧ n ≤ 90 then n + 32 else n

/-- Model of Python `str.lower()` (ASCII range; digests and algorithm ids are ASCII). -/
def pyLower (s : PyStr) : PyStr := s.map lowerCp

/-- ASCII whitespace recognised by Python `str.strip()`. -/
def isSpaceCp (n : Nat) : Bool := n = 32 || n = 9 || n = 10 || n = 13 || n = 11 || n = 12

/-- Model of Python `str.strip()`: remove leading and trailing whitespace. -/
def pyStrip (s : PyStr) : PyStr :=
  ((s.dropWhile isSpaceCp).reverse.dropWhile isSpaceCp).reverse

/-- Value returned by a Python callable: a `str`, or a non-string object
together with the text its `str()` conversion produces. -/
inductive PyValue where
  | str (s : PyStr)
  | nonstr (rendered : PyStr)

/-- Result of calling a Python function: a value, or a raised exception. -/
inductive PyResult where
  | ok (v : PyValue)
  | exc

/-- A user-supplied custom hash function (`custom_hash_function`). -/
def CustomFn : Type := PyStr → PyResult

/-- The hashlib environment consumed by `get_hash`.  `md5Hex` is
`hashlib.md5(text.encode()).hexdigest()`; `availableAlgorithms` is the
lowercased content of `hashlib.algorithms_available`; `compute algo text`
is the hexdigest produced through `getattr(hashlib, algo)` or
`hashlib.new(algo)` (`none` models a raised exception); `custom` is the
global `custom_hash_function` slot. -/
structure HashEnv where
  md5Hex : PyStr → PyStr
  availableAlgorithms : List PyStr
  compute : PyStr → PyStr → Option PyStr
  custom : Option CustomFn

/-- Body of the `algo == "custom"` branch of `get_hash` (lines 75-84):
call the custom function; a raised exception falls back to MD5; a
non-string result is passed through `str(result)` and returned. -/
def applyCustom (env : HashEnv) (f : CustomFn) (text : PyStr) : PyStr :=
  match f text with
  | PyResult.exc => env.md5Hex text
  | PyResult.ok (PyValue.str s) => s
  | PyResult.ok (PyValue.nonstr r) => r

/-- The non-custom branches of `get_hash` (lines 86-110): BLAKE2 prefix,
SHAKE substring, `hashlib.algorithms_available` lookup, and the final
MD5 fallback; any exception is absorbed into the MD5 fallback by the
outer `try/except`. -/
def getHashBuiltin (env : HashEnv) (text algo : PyStr) : PyStr :=
  if pstr "blake2" <+: algo then (env.compute algo text).getD (env.md5Hex text)
  else if pstr "shake" <:+: algo then (env.compute algo text).getD (env.md5Hex text)
  else if algo ∈ env.availableAlgorithms then (env.compute algo text).getD (env.md5Hex text)
  else env.md5Hex text

/-- Model of `get_hash(text, hash_type)` (lines 70-110). -/
def get_hash (env : HashEnv) (text hash_type : PyStr) : PyStr :=
  let algo := pyLower hash_type
  match env.custom with
  | some f => if algo = pstr "custom" then applyCustom env f text else getHashBuiltin env text algo
  | none => getHashBuiltin env text algo

/-- Model of `load_custom_hash_function` (lines 113-153) acting on the
global `custom_hash_function` slot: the candidate function is test-called
on `"test"`; on an exception the slot is unchanged and `False` is
returned, otherwise the slot is overwritten with the new function. -/
def load_custom_hash_function (slot : Option CustomFn) (f : CustomFn) :
    Option CustomFn × Bool :=
  match f (pstr "test") with
  | PyResult.exc => (slot, false)
  | PyResult.ok _ => (some f, true)

/-- One step of the CPython `itertools.product` accumulation
(`result = [x+[y] for x in result for y in pool]`). -/
def prodStep (c : PyStr) (acc : List PyStr) : List PyStr :=
  acc.flatMap (fun x => c.map (fun y => x ++ [y]))

/-- `itertools.product(char_set, repeat=L)` as the list of joined tuples. -/
def productRepeat (c : PyStr) : Nat → List PyStr
  | 0 => [([] : List Nat)]
  | L + 1 => prodStep c (productRepeat c L)

/-- The length tiers enumerated by `BruteForceWorker.run`
(`for length in range(min_length, max_length + 1)`). -/
def bfTiers (c : PyStr) (minL maxL : Nat) : List (List PyStr) :=
  (List.range' minL (maxL + 1 - minL)).map (productRepeat c)

/-- `total_combinations` as computed in lines 173-175. -/
def bfTotal (c : PyStr) (minL maxL : Nat) : Nat :=
  ((List.range' minL (maxL + 1 - minL)).map (c.length ^ ·)).sum

/-- The full candidate sequence produced by the nested loops of
`BruteForceWorker.run`, in emission order. -/
def enumerateCandidates (c : PyStr) (minL maxL : Nat) : List PyStr :=
  (bfTiers c minL maxL).flatten

/-- Big-endian base-`c.length` spelling of `i` as an `L`-character word
over the charset `c`: odometer counting with the first position most
significant. -/
def natToWord (c : PyStr) : Nat → Nat → PyStr
  | 0, _ => []
  | L + 1, i => natToWord c L (i / c.length) ++ [c.getD (i % c.length) 0]

/-- Signals emitted by a worker: `update_progress`, `found_match`,
`finished_task`. -/
inductive Event where
  | progress (pct : Nat) (cur : PyStr)
  | found_match (text hashed : PyStr)
  | finished
deriving DecidableEq

/-- Terminal outcome of one job. -/
inductive Outcome where
  | matched
  | exhausted
  | cancelled
deriving DecidableEq

/-- Cancellation schedule for the cooperative `self.running` flag:
`some k` means the next `k` reads see `True` and all later reads see
`False`; `none` means cancellation is never requested. -/
def Sched : Type := Option Nat

/-- Value returned by the current read of `self.running`. -/
def runOk : Sched → Bool
  | none => true
  | some 0 => false
  | some (_ + 1) => true

/-- Schedule remaining after one read of `self.running`. -/
def tick : Sched → Sched
  | none => none
  | some 0 => some 0
  | some (k + 1) => some k

/-- Accumulated state of one worker loop: emitted events, the
`tried_combinations` counter, the remaining schedule, the matched
`(text, hash)` pair if any, and the number of `get_hash` invocations. -/
structure StreamOut where
  events : List Event
  tried : Nat
  sched : Sched
  found : Option (PyStr × PyStr)
  hashCalls : Nat

/-- Observable result of a whole worker run. -/
structure RunResult where
  events : List Event
  tried : Nat
  outcome : Outcome
  found : Option (PyStr × PyStr)
  hashCalls : Nat
deriving DecidableEq

/-- The common tail of the three `run` methods (e.g. lines 207-211): if a
match was found the job is `matched`; otherwise the final `self.running`
read decides between forcing the terminal `progress(100, "")` event
(`exhausted`) and stopping silently (`cancelled`); `finished_task` is
emitted exactly once in every case. -/
def finishRun (o : StreamOut) : RunResult :=
  match o.found with
  | some r => ⟨o.events ++ [Event.finished], o.tried, Outcome.matched, some r, o.hashCalls⟩
  | none =>
    if runOk o.sched then
      ⟨o.events ++ [Event.progress 100 [], Event.finished], o.tried, Outcome.exhausted, none,
        o.hashCalls⟩
    else ⟨o.events ++ [Event.finished], o.tried, Outcome.cancelled, none, o.hashCalls⟩

/-- The inner loop of `BruteForceWorker.run` (lines 184-202) over the
candidates of one length tier: check the flag, count the attempt,
emit the throttled progress event, hash, and compare. -/
def runInner (env : HashEnv) (ht tgt : PyStr) (total : Nat) :
    List PyStr → Nat → Sched → StreamOut
  | [], tried, s => ⟨[], tried, s, none, 0⟩
  | t :: rest, tried, s =>
    if runOk s then
      let s1 := tick s
      let tried1 := tried + 1
      let evs1 := if tried1 % 10000 = 0 ∨ tried1 = total then
        [Event.progress (min 100 (tried1 * 100 / total)) t] else []
      let h := get_hash env t ht
      if h = tgt then
        ⟨evs1 ++ [Event.found_match t h, Event.progress 100 t], tried1, s1, some (t, h), 1⟩
      else
        let o := runInner env ht tgt total rest tried1 s1
        ⟨evs1 ++ o.events, o.tried, o.sched, o.found, o.hashCalls + 1⟩
    else ⟨[], tried, tick s, none, 0⟩

/-- The outer loop of `BruteForceWorker.run` (lines 180-205) over the
length tiers, with the per-tier flag check and the `if found: break`. -/
def runOuter (env : HashEnv) (ht tgt : PyStr) (total : Nat) :
    List (List PyStr) → Nat → Sched → StreamOut
  | [], tried, s => ⟨[], tried, s, none, 0⟩
  | tier :: rest, tried, s =>
    if runOk s then
      let o1 := runInner env ht tgt total tier tried (tick s)
      if o1.found.isSome then o1
      else
        let o2 := runOuter env ht tgt total rest o1.tried o1.sched
        ⟨o1.events ++ o2.events, o2.tried, o2.sched, o2.found, o1.hashCalls + o2.hashCalls⟩
    else ⟨[], tried, tick s, none, 0⟩

/-- Construction state of a `BruteForceWorker` (lines 160-167); the
target hash is lowercased once here and never again. -/
structure BFCfg where
  env : HashEnv
  hash_type : PyStr
  target_hash : PyStr
  char_set : PyStr
  min_length : Nat
  max_length : Nat

/-- `BruteForceWorker.__init__`: stores the configuration, lowercasing
the target hash. -/
def mkBruteForceWorker (env : HashEnv) (ht target cs : PyStr) (minL maxL : Nat) : BFCfg :=
  ⟨env, ht, pyLower target, cs, minL, maxL⟩

/-- The loop phase of `BruteForceWorker.run`: the outer loop applied to
the length tiers, starting from `tried_combinations = 0`. -/
def bfOuter (cfg : BFCfg) (s : Sched) : StreamOut :=
  runOuter cfg.env cfg.hash_type cfg.target_hash
    (bfTotal cfg.char_set cfg.min_length cfg.max_length)
    (bfTiers cfg.char_set cfg.min_length cfg.max_length) 0 s

/-- `BruteForceWorker.run` (lines 172-211): precompute the total, drive
the nested loops, force the terminal 100% event on exhaustion, and emit
`finished_task` exactly once.  The outcome is `matched` if a match was
emitted, `cancelled` if the final `self.running` read is false, and
`exhausted` otherwise. -/
def bfRun (cfg : BFCfg) (s : Sched) : RunResult := finishRun (bfOuter cfg s)

/-- The loop of `DictionaryBruteForceWorker.run` (lines 242-262): count
every raw line, emit the throttled progress event with the stripped
line, then skip blank lines before hashing. -/
def dictLoop (env : HashEnv) (ht tgt : PyStr) (total : Nat) :
    List PyStr → Nat → Sched → StreamOut
  | [], tried, s => ⟨[], tried, s, none, 0⟩
  | line :: rest, tried, s =>
    if runOk s then
      let s1 := tick s
      let tried1 := tried + 1
      let evs1 := if tried1 % 1000 = 0 ∨ tried1 = total then
        [Event.progress (min 100 (tried1 * 100 / total)) (pyStrip line)] else []
      let text := pyStrip line
      if text = ([] : List Nat) then
        let o := dictLoop env ht tgt total rest tried1 s1
        ⟨evs1 ++ o.events, o.tried, o.sched, o.found, o.hashCalls⟩
      else
        let h := get_hash env text ht
        if h = tgt then
          ⟨evs1 ++ [Event.found_match text h, Event.progress 100 text], tried1, s1,
            some (text, h), 1⟩
        else
          let o := dictLoop env ht tgt total rest tried1 s1
          ⟨evs1 ++ o.events, o.tried, o.sched, o.found, o.hashCalls + 1⟩
    else ⟨[], tried, tick s, none, 0⟩

/-- `DictionaryBruteForceWorker.run` (lines 231-268): the first pass
counts every line of the file (`total_lines`), the second pass drives
`dictLoop`. -/
def dictRun (env : HashEnv) (ht target : PyStr) (lines : List PyStr) (s : Sched) : RunResult :=
  finishRun (dictLoop env ht (pyLower target) lines.length lines 0 s)

/-- Python `line.split(':', 1)`: the text before the first colon and the
text after it. -/
def pySplitOnceColon (l : PyStr) : PyStr × PyStr :=
  (l.takeWhile (· ≠ 58), l.drop ((l.takeWhile (· ≠ 58)).length + 1))

/-- The loop of `RainbowTableWorker.run` (lines 297-323): count each raw
line, emit the throttled progress event, strip, skip blank and
colon-free lines, split on the first colon, lowercase the stored digest
and compare it with the (already lowercased) target.  No hash function
is ever invoked, so `hashCalls` is never incremented. -/
def rbLoop (tgt : PyStr) (total : Nat) : List PyStr → Nat → Sched → StreamOut
  | [], tried, s => ⟨[], tried, s, none, 0⟩
  | line :: rest, tried, s =>
    if runOk s then
      let s1 := tick s
      let tried1 := tried + 1
      let evs1 := if tried1 % 1000 = 0 ∨ tried1 = total then
        [Event.progress (min 100 (tried1 * 100 / total)) (pyStrip line)] else []
      let l := pyStrip line
      if l = ([] : List Nat) then
        let o := rbLoop tgt total rest tried1 s1
        ⟨evs1 ++ o.events, o.tried, o.sched, o.found, o.hashCalls⟩
      else if 58 ∉ l then
        let o := rbLoop tgt total rest tried1 s1
        ⟨evs1 ++ o.events, o.tried, o.sched, o.found, o.hashCalls⟩
      else
        let stored := (pySplitOnceColon l).1
        let plain := (pySplitOnceColon l).2
        let storedLower := pyLower stored
        if storedLower = tgt then
          ⟨evs1 ++ [Event.found_match plain storedLower, Event.progress 100 plain], tried1, s1,
            some (plain, storedLower), 0⟩
        else
          let o := rbLoop tgt total rest tried1 s1
          ⟨evs1 ++ o.events, o.tried, o.sched, o.found, o.hashCalls⟩
    else ⟨[], tried, tick s, none, 0⟩

/-- `RainbowTableWorker.run` (lines 287-329), with the target lowercased
at construction (line 280). -/
def rbRun (target : PyStr) (lines : List PyStr) (s : Sched) : RunResult :=
  finishRun (rbLoop (pyLower target) lines.length lines 0 s)

/-- Splitting a line on its first colon, as described by the spec for
rainbow-table lines (`digest:plaintext`, first colon is the delimiter);
`none` when the line has no colon. -/
def splitFirstColon (l : PyStr) : Option (PyStr × PyStr) :=
  if 58 ∈ l then some (pySplitOnceColon l) else none

/-- Modelled from the spec wording of the rainbow lookup (section 4.4):
the first line whose stripped text splits on a first colon into a digest
half that, lowercased, equals the lowercased target yields the plaintext
half and the lowercased digest. -/
def rainbowLookupSpec (target : PyStr) : List PyStr → Option (PyStr × PyStr)
  | [] => none
  | line :: rest =>
    match splitFirstColon (pyStrip line) with
    | none => rainbowLookupSpec target rest
    | some (d, p) =>
      if pyLower d = pyLower target then some (p, pyLower d)
      else rainbowLookupSpec target rest

/-- Configuration errors reported by `HashBruteForcer.start_bruteforce`
before any worker is created. -/
inductive ConfigError where
  | EmptyTarget
  | EmptyCharset
  | InvalidRange
deriving DecidableEq

/-- Result of `start_bruteforce` on the charset tab: either an error
appended to the results pane with an immediate return, or a constructed
`BruteForceWorker` that is then started. -/
inductive StartResult where
  | error (e : ConfigError)
  | started (ht target cs : PyStr) (minL maxL : Nat)
deriving DecidableEq

/-- `HashBruteForcer.start_bruteforce` (lines 639-674), charset tab: the
stripped target must be nonempty, the charset nonempty, and
`min_length ≤ max_length`; only then is a worker constructed and
started.  The algorithm id is passed through without validation. -/
def start_bruteforce (target ht cs : PyStr) (minL maxL : Nat) : StartResult :=
  if pyStrip target = ([] : List Nat) then StartResult.error ConfigError.EmptyTarget
  else if cs = ([] : List Nat) then StartResult.error ConfigError.EmptyCharset
  else if maxL < minL then StartResult.error ConfigError.InvalidRange
  else StartResult.started ht target cs minL maxL

/-- Percent values of the progress events of a trace, in emission order. -/
def pcts (evs : List Event) : List Nat :=
  evs.filterMap (fun e => match e with | Event.progress p _ => some p | _ => none)

lemma map_eq_range_getD {α β : Type} (f : α → β) (d : α) (l : List α) :
    l.map f = (List.range l.length).map (fun k => f (l.getD k d)) := by
  induction l with
  | nil => rfl
  | cons x xs ih =>
    simp only [List.map_cons, List.length_cons, List.range_succ_eq_map, List.getD_cons_zero,
      List.map_map]
    refine congrArg (f x :: ·) ?_
    rw [ih]
    refine List.map_congr_left (fun k _ => ?_)
    simp [Function.comp, List.getD_cons_succ]

lemma range_mul_map {β : Type} (g : Nat → β) (m n : Nat) :
    (List.range (m * n)).map g =
      (List.range m).flatMap (fun j => (List.range n).map (fun k => g (j * n + k))) := by
  induction m with
  | zero => simp
  | succ m ih =>
    rw [Nat.succ_mul, List.range_add, List.map_append, ih, List.range_succ,
      List.flatMap_append]
    simp [List.map_map, Function.comp]

lemma length_natToWord (c : PyStr) : ∀ L i, (natToWord c L i).length = L := by
  intro L
  induction L with
  | zero => intro i; rfl
  | succ L ih => intro i; simp [natToWord, ih]

lemma productRepeat_eq_odometer (c : PyStr) :
    ∀ L, productRepeat c L = (List.range (c.length ^ L)).map (natToWord c L) := by
  intro L
  induction L with
  | zero => rfl
  | succ L ih =>
    have hmap : ∀ j, (c.map (fun y => natToWord c L j ++ [y])) =
        (List.range c.length).map (fun k => natToWord c (L + 1) (j * c.length + k)) := by
      intro j
      rw [map_eq_range_getD (fun y => natToWord c L j ++ [y]) 0 c]
      refine List.map_congr_left (fun k hk => ?_)
      have hk' : k < c.length := List.mem_range.mp hk
      have hn : 0 < c.length := Nat.lt_of_le_of_lt (Nat.zero_le k) hk'
      have hdiv : (j * c.length + k) / c.length = j := by
        rw [Nat.mul_comm j c.length, Nat.mul_add_div hn, Nat.div_eq_of_lt hk', Nat.add_zero]
      have hmod : (j * c.length + k) % c.length = k := by
        rw [Nat.mul_comm j c.length, Nat.mul_add_mod, Nat.mod_eq_of_lt hk']
      simp [natToWord, hdiv, hmod]
    calc productRepeat c (L + 1)
        = ((List.range (c.length ^ L)).map (natToWord c L)).flatMap
            (fun x => c.map (fun y => x ++ [y])) := by
          rw [productRepeat, prodStep, ih]
      _ = (List.range (c.length ^ L)).flatMap
            (fun j => c.map (fun y => natToWord c L j ++ [y])) := by
          rw [List.flatMap_map]
      _ = (List.range (c.length ^ L)).flatMap
            (fun j => (List.range c.length).map
              (fun k => natToWord c (L + 1) (j * c.length + k))) := by
          rw [List.flatMap_def, List.flatMap_def, List.map_congr_left (fun j _ => hmap j)]
      _ = (List.range (c.length ^ (L + 1))).map (natToWord c (L + 1)) := by
          rw [pow_succ, range_mul_map]

lemma natToWord_injOn (c : PyStr) (hc : c.Nodup) :
    ∀ L i j, i < c.length ^ L → j < c.length ^ L →
      natToWord c L i = natToWord c L j → i = j := by
  intro L
  induction L with
  | zero =>
    intro i j hi hj _
    simp only [pow_zero, Nat.lt_one_iff] at hi hj
    omega
  | succ L ih =>
    intro i j hi hj heq
    have hn : 0 < c.length := by
      rcases Nat.eq_zero_or_pos c.length with h0 | h
      · rw [h0] at hi; simp [pow_succ] at hi
      · exact h
    simp only [natToWord] at heq
    obtain ⟨hpre, hsuf⟩ := List.append_inj' heq rfl
    have hiL : i / c.length < c.length ^ L := by
      refine Nat.div_lt_of_lt_mul ?_
      rw [Nat.mul_comm, ← pow_succ]; exact hi
    have hjL : j / c.length < c.length ^ L := by
      refine Nat.div_lt_of_lt_mul ?_
      rw [Nat.mul_comm, ← pow_succ]; exact hj
    have hdiv := ih (i / c.length) (j / c.length) hiL hjL hpre
    have himod : i % c.length < c.length := Nat.mod_lt _ hn
    have hjmod : j % c.length < c.length := Nat.mod_lt _ hn
    have hsuf' : c.getD (i % c.length) 0 = c.getD (j % c.length) 0 := by
      simpa using hsuf
    rw [List.getD_eq_getElem c 0 himod, List.getD_eq_getElem c 0 hjmod] at hsuf'
    have hmod : i % c.length = j % c.length := (hc.getElem_inj_iff).mp hsuf'
    calc i = c.length * (i / c.length) + i % c.length := (Nat.div_add_mod i c.length).symm
      _ = c.length * (j / c.length) + j % c.length := by rw [hdiv, hmod]
      _ = j := Nat.div_add_mod j c.length

lemma mem_productRepeat_length {c : PyStr} {L : Nat} {w : PyStr}
    (hw : w ∈ productRepeat c L) : w.length = L := by
  induction L generalizing w with
  | zero => simp only [productRepeat, List.mem_singleton] at hw; simp [hw]
  | succ L ih =>
    simp only [productRepeat, prodStep, List.mem_flatMap, List.mem_map] at hw
    obtain ⟨x, hx, y, _, rfl⟩ := hw
    simp [ih hx]

lemma productRepeat_nodup (c : PyStr) (hc : c.Nodup) (L : Nat) :
    (productRepeat c L).Nodup := by
  rw [productRepeat_eq_odometer]
  refine List.Nodup.map_on ?_ (List.nodup_range _)
  intro i hi j hj heq
  exact natToWord_injOn c hc L i j (List.mem_range.mp hi) (List.mem_range.mp hj) heq

lemma length_productRepeat (c : PyStr) (L : Nat) :
    (productRepeat c L).length = c.length ^ L := by
  rw [productRepeat_eq_odometer, List.length_map, List.length_range]

lemma enumerateCandidates_eq_flatMap (c : PyStr) (minL maxL : Nat) :
    enumerateCandidates c minL maxL =
      (List.range' minL (maxL + 1 - minL)).flatMap (productRepeat c) := by
  rw [enumerateCandidates, bfTiers, List.flatMap_def]

lemma enumerateCandidates_length (c : PyStr) (minL maxL : Nat) :
    (enumerateCandidates c minL maxL).length = bfTotal c minL maxL := by
  rw [enumerateCandidates_eq_flatMap, List.length_flatMap, bfTotal]
  refine congrArg List.sum (List.map_congr_left (fun L _ => ?_))
  simp [Function.comp, length_productRepeat]

lemma bfTotal_eq_sum_Icc (c : PyStr) (minL maxL : Nat) (h : minL ≤ maxL) :
    bfTotal c minL maxL = ∑ L ∈ Finset.Icc minL maxL, c.length ^ L := by
  induction maxL, h using Nat.le_induction with
  | base =>
    rw [bfTotal]
    have h1 : minL + 1 - minL = 1 := by omega
    rw [h1, Finset.Icc_self, Finset.sum_singleton]
    rfl
  | succ maxL hle ih =>
    rw [bfTotal]
    have h2 : maxL + 1 + 1 - minL = (maxL + 1 - minL) + 1 := by omega
    rw [h2, List.range'_1_concat, List.map_append, List.sum_append]
    have h3 : minL + (maxL + 1 - minL) = maxL + 1 := by omega
    rw [h3, Finset.sum_Icc_succ_top (by omega)]
    rw [bfTotal] at ih
    rw [ih]
    simp

lemma enumerateCandidates_nodup (c : PyStr) (hc : c.Nodup) (minL maxL : Nat) :
    (enumerateCandidates c minL maxL).Nodup := by
  rw [enumerateCandidates_eq_flatMap, List.flatMap_def]
  rw [List.nodup_flatten]
  constructor
  · intro l hl
    simp only [List.mem_map] at hl
    obtain ⟨L, _, rfl⟩ := hl
    exact productRepeat_nodup c hc L
  · refine List.Pairwise.map (productRepeat c) ?_ (List.pairwise_lt_range' minL (maxL + 1 - minL))
    intro a b hab w hwa hwb
    have ha := mem_productRepeat_length hwa
    have hb := mem_productRepeat_length hwb
    omega

lemma enumerateCandidates_mem_length {c : PyStr} {minL maxL : Nat} {w : PyStr}
    (hw : w ∈ enumerateCandidates c minL maxL) : minL ≤ w.length ∧ w.length ≤ maxL := by
  rw [enumerateCandidates_eq_flatMap, List.mem_flatMap] at hw
  obtain ⟨L, hL, hwL⟩ := hw
  have := List.mem_range'_1.mp hL
  have := mem_productRepeat_length hwL
  omega

/-- C1: for every charset of distinct characters and every length range with
`1 ≤ minLength ≤ maxLength`, the charset enumeration of `BruteForceWorker.run`
yields exactly `Σ len(charset)^L` candidates for `L` in `[minLength, maxLength]`,
each of length in that range, with no duplicates, ordered first by ascending
length and then odometer-style with the first character position most
significant (the tier of length `L` lists `natToWord` of `0, 1, ...,
len(charset)^L - 1`); in particular charset `"ab"` with lengths 1..2 yields
exactly `"a","b","aa","ab","ba","bb"` in that order. -/
theorem C1_charset_enumeration (c : PyStr) (minL maxL : Nat)
    (hc : c.Nodup) (hne : c ≠ []) (h1 : 1 ≤ minL) (h2 : minL ≤ maxL) :
    (enumerateCandidates c minL maxL).length = ∑ L ∈ Finset.Icc minL maxL, c.length ^ L ∧
    (∀ w ∈ enumerateCandidates c minL maxL, minL ≤ w.length ∧ w.length ≤ maxL) ∧
    (enumerateCandidates c minL maxL).Nodup ∧
    enumerateCandidates c minL maxL =
      (List.range' minL (maxL + 1 - minL)).flatMap
        (fun L => (List.range (c.length ^ L)).map (natToWord c L)) ∧
    enumerateCandidates (pstr "ab") 1 2 =
      [pstr "a", pstr "b", pstr "aa", pstr "ab", pstr "ba", pstr "bb"] := by
  refine ⟨?_, ?_, ?_, ?_, by decide⟩
  · rw [enumerateCandidates_length, bfTotal_eq_sum_Icc c minL maxL h2]
  · exact fun w hw => enumerateCandidates_mem_length hw
  · exact enumerateCandidates_nodup c hc minL maxL
  · rw [enumerateCandidates_eq_flatMap, List.flatMap_def, List.flatMap_def,
      List.map_congr_left (fun L _ => productRepeat_eq_odometer c L)]

/-- Witness for C1 at charset `"ab"`, lengths 1..2. -/
theorem C1_charset_enumeration_witness :
    ((pstr "ab").Nodup ∧ pstr "ab" ≠ [] ∧ 1 ≤ (1 : Nat) ∧ (1 : Nat) ≤ 2) ∧
    (enumerateCandidates (pstr "ab") 1 2).length =
      ∑ L ∈ Finset.Icc 1 2, (pstr "ab").length ^ L :=
  ⟨⟨by decide, by decide, by decide, by decide⟩,
    (C1_charset_enumeration (pstr "ab") 1 2 (by decide) (by decide) (by decide) (by decide)).1⟩

@[simp] lemma pcts_nil : pcts [] = [] := rfl

@[simp] lemma pcts_append (l1 l2 : List Event) : pcts (l1 ++ l2) = pcts l1 ++ pcts l2 :=
  List.filterMap_append _ _ _

@[simp] lemma pcts_cons_progress (p : Nat) (c : PyStr) (l : List Event) :
    pcts (Event.progress p c :: l) = p :: pcts l := rfl

@[simp] lemma pcts_cons_match (a b : PyStr) (l : List Event) :
    pcts (Event.found_match a b :: l) = pcts l := rfl

@[simp] lemma pcts_cons_finished (l : List Event) :
    pcts (Event.finished :: l) = pcts l := rfl

lemma minPct_mono {total a b : Nat} (h : a ≤ b) :
    min 100 (a * 100 / total) ≤ min 100 (b * 100 / total) :=
  min_le_min (le_refl 100) (Nat.div_le_div_right (Nat.mul_le_mul_right _ h))

lemma runInner_tried_le (env : HashEnv) (ht tgt : PyStr) (total : Nat) :
    ∀ (cands : List PyStr) (tried : Nat) (s : Sched),
      tried ≤ (runInner env ht tgt total cands tried s).tried := by
  intro cands
  induction cands with
  | nil => intro tried s; simp [runInner]
  | cons t rest ih =>
    intro tried s
    cases hok : runOk s with
    | false => simp [runInner, hok]
    | true =>
      by_cases hm : get_hash env t ht = tgt
      · simp [runInner, hok, hm]
      · simp only [runInner, hok, if_true, if_neg hm]
        exact Nat.le_trans (Nat.le_succ tried) (ih (tried + 1) (tick s))

lemma runInner_tried_eq (env : HashEnv) (ht tgt : PyStr) (total : Nat) :
    ∀ (cands : List PyStr) (tried : Nat) (s : Sched),
      (runInner env ht tgt total cands tried s).tried =
        tried + (runInner env ht tgt total cands tried s).hashCalls := by
  intro cands
  induction cands with
  | nil => intro tried s; simp [runInner]
  | cons t rest ih =>
    intro tried s
    cases hok : runOk s with
    | false => simp [runInner, hok]
    | true =>
      by_cases hm : get_hash env t ht = tgt
      · simp [runInner, hok, hm]
      · simp only [runInner, hok, if_true, if_neg hm]
        rw [ih (tried + 1) (tick s)]
        omega

lemma runInner_sched_none (env : HashEnv) (ht tgt : PyStr) (total : Nat) :
    ∀ (cands : List PyStr) (tried : Nat),
      (runInner env ht tgt total cands tried none).sched = none := by
  intro cands
  induction cands with
  | nil => intro tried; simp [runInner]
  | cons t rest ih =>
    intro tried
    have hok : runOk none = true := rfl
    by_cases hm : get_hash env t ht = tgt
    · simp [runInner, hok, hm, tick]
    · simp only [runInner, hok, if_true, if_neg hm]
      exact ih (tried + 1)

lemma runInner_budget (env : HashEnv) (ht tgt : PyStr) (total : Nat) :
    ∀ (cands : List PyStr) (tried k : Nat),
      ∃ k', (runInner env ht tgt total cands tried (some k)).sched = some k' ∧
        (runInner env ht tgt total cands tried (some k)).tried + k' ≤ tried + k := by
  intro cands
  induction cands with
  | nil => intro tried k; exact ⟨k, by simp [runInner], by simp [runInner]⟩
  | cons t rest ih =>
    intro tried k
    cases k with
    | zero =>
      have hok : runOk (some 0) = false := rfl
      exact ⟨0, by simp [runInner, hok, tick], by simp [runInner, hok]⟩
    | succ k =>
      have hok : runOk (some (k + 1)) = true := rfl
      have htick : tick (some (k + 1)) = some k := rfl
      by_cases hm : get_hash env t ht = tgt
      · refine ⟨k, ?_, ?_⟩ <;> simp [runInner, hok, hm, htick] <;> omega
      · simp only [runInner, hok, if_true, if_neg hm, htick]
        obtain ⟨k', h1, h2⟩ := ih (tried + 1) k
        exact ⟨k', h1, by omega⟩


lemma runInner_nil (env : HashEnv) (ht tgt : PyStr) (total tried : Nat) (s : Sched) :
    runInner env ht tgt total [] tried s = ⟨[], tried, s, none, 0⟩ := rfl

lemma runInner_cons_stop (env : HashEnv) (ht tgt : PyStr) (total : Nat) (t : PyStr)
    (rest : List PyStr) (tried : Nat) (s : Sched) (hok : runOk s = false) :
    runInner env ht tgt total (t :: rest) tried s = ⟨[], tried, tick s, none, 0⟩ := by
  simp [runInner, hok]

lemma runInner_cons_match (env : HashEnv) (ht tgt : PyStr) (total : Nat) (t : PyStr)
    (rest : List PyStr) (tried : Nat) (s : Sched) (hok : runOk s = true)
    (hm : get_hash env t ht = tgt) :
    runInner env ht tgt total (t :: rest) tried s =
      ⟨(if (tried + 1) % 10000 = 0 ∨ tried + 1 = total then
          [Event.progress (min 100 ((tried + 1) * 100 / total)) t] else []) ++
        [Event.found_match t tgt, Event.progress 100 t], tried + 1, tick s, some (t, tgt), 1⟩ := by
  simp [runInner, hok, hm]

lemma runInner_cons_nomatch (env : HashEnv) (ht tgt : PyStr) (total : Nat) (t : PyStr)
    (rest : List PyStr) (tried : Nat) (s : Sched) (hok : runOk s = true)
    (hm : get_hash env t ht ≠ tgt) :
    runInner env ht tgt total (t :: rest) tried s =
      ⟨(if (tried + 1) % 10000 = 0 ∨ tried + 1 = total then
          [Event.progress (min 100 ((tried + 1) * 100 / total)) t] else []) ++
        (runInner env ht tgt total rest (tried + 1) (tick s)).events,
       (runInner env ht tgt total rest (tried + 1) (tick s)).tried,
       (runInner env ht tgt total rest (tried + 1) (tick s)).sched,
       (runInner env ht tgt total rest (tried + 1) (tick s)).found,
       (runInner env ht tgt total rest (tried + 1) (tick s)).hashCalls + 1⟩ := by
  simp [runInner, hok, hm]

lemma mem_pcts_throttle {p m total tried1 : Nat} {cur : PyStr}
    (hp : p ∈ pcts (if tried1 % m = 0 ∨ tried1 = total then
      [Event.progress (min 100 (tried1 * 100 / total)) cur] else [])) :
    (tried1 % m = 0 ∨ tried1 = total) ∧ p = min 100 (tried1 * 100 / total) := by
  by_cases h : tried1 % m = 0 ∨ tried1 = total
  · rw [if_pos h] at hp
    exact ⟨h, by simpa using hp⟩
  · rw [if_neg h] at hp
    simp at hp

lemma mem_throttle {e : Event} {m total tried1 : Nat} {cur : PyStr}
    (he : e ∈ (if tried1 % m = 0 ∨ tried1 = total then
      [Event.progress (min 100 (tried1 * 100 / total)) cur] else [])) :
    e = Event.progress (min 100 (tried1 * 100 / total)) cur := by
  by_cases h : tried1 % m = 0 ∨ tried1 = total
  · rw [if_pos h] at he
    simpa using he
  · rw [if_neg h] at he
    simp at he

lemma runInner_pcts_form (env : HashEnv) (ht tgt : PyStr) (total : Nat) :
    ∀ (cands : List PyStr) (tried : Nat) (s : Sched),
      ∀ p ∈ pcts (runInner env ht tgt total cands tried s).events,
        (∃ u, tried < u ∧ u ≤ (runInner env ht tgt total cands tried s).tried ∧
          (u % 10000 = 0 ∨ u = total) ∧ p = min 100 (u * 100 / total)) ∨
        ((runInner env ht tgt total cands tried s).found.isSome ∧ p = 100) := by
  intro cands
  induction cands with
  | nil => intro tried s p hp; simp [runInner_nil] at hp
  | cons t rest ih =>
    intro tried s p hp
    cases hok : runOk s with
    | false => rw [runInner_cons_stop env ht tgt total t rest tried s hok] at hp; simp at hp
    | true =>
      by_cases hm : get_hash env t ht = tgt
      · rw [runInner_cons_match env ht tgt total t rest tried s hok hm] at hp ⊢
        rw [pcts_append] at hp
        rcases List.mem_append.mp hp with hp | hp
        · obtain ⟨hth, rfl⟩ := mem_pcts_throttle hp
          exact Or.inl ⟨tried + 1, by omega, le_refl _, hth, rfl⟩
        · have hp100 : p = 100 := by simpa using hp
          exact Or.inr ⟨rfl, hp100⟩
      · rw [runInner_cons_nomatch env ht tgt total t rest tried s hok hm] at hp ⊢
        rw [pcts_append] at hp
        rcases List.mem_append.mp hp with hp | hp
        · obtain ⟨hth, rfl⟩ := mem_pcts_throttle hp
          refine Or.inl ⟨tried + 1, by omega, ?_, hth, rfl⟩
          exact runInner_tried_le env ht tgt total rest (tried + 1) (tick s)
        · rcases ih (tried + 1) (tick s) p hp with ⟨u, hu1, hu2, hu3, hu4⟩ | h
          · exact Or.inl ⟨u, by omega, hu2, hu3, hu4⟩
          · exact Or.inr h

lemma runInner_pcts_pairwise (env : HashEnv) (ht tgt : PyStr) (total : Nat) :
    ∀ (cands : List PyStr) (tried : Nat) (s : Sched),
      (pcts (runInner env ht tgt total cands tried s).events).Pairwise (· ≤ ·) := by
  intro cands
  induction cands with
  | nil => intro tried s; simp [runInner_nil]
  | cons t rest ih =>
    intro tried s
    cases hok : runOk s with
    | false => rw [runInner_cons_stop env ht tgt total t rest tried s hok]; simp
    | true =>
      by_cases hm : get_hash env t ht = tgt
      · rw [runInner_cons_match env ht tgt total t rest tried s hok hm]
        rw [pcts_append]
        refine List.pairwise_append.mpr ⟨?_, by simp, ?_⟩
        · by_cases hth : (tried + 1) % 10000 = 0 ∨ tried + 1 = total
          · rw [if_pos hth]; simp
          · rw [if_neg hth]; simp
        · intro a ha b hb
          obtain ⟨_, rfl⟩ := mem_pcts_throttle ha
          have hb100 : b = 100 := by simpa using hb
          rw [hb100]
          exact min_le_left _ _
      · rw [runInner_cons_nomatch env ht tgt total t rest tried s hok hm]
        rw [pcts_append]
        refine List.pairwise_append.mpr ⟨?_, ih (tried + 1) (tick s), ?_⟩
        · by_cases hth : (tried + 1) % 10000 = 0 ∨ tried + 1 = total
          · rw [if_pos hth]; simp
          · rw [if_neg hth]; simp
        · intro a ha b hb
          obtain ⟨_, rfl⟩ := mem_pcts_throttle ha
          rcases runInner_pcts_form env ht tgt total rest (tried + 1) (tick s) b hb with
            ⟨u, hu1, _, _, rfl⟩ | ⟨_, rfl⟩
          · exact minPct_mono (by omega)
          · exact min_le_left _ _

lemma runInner_found_last (env : HashEnv) (ht tgt : PyStr) (total : Nat) :
    ∀ (cands : List PyStr) (tried : Nat) (s : Sched),
      (runInner env ht tgt total cands tried s).found.isSome →
        (pcts (runInner env ht tgt total cands tried s).events).getLast? = some 100 := by
  intro cands
  induction cands with
  | nil => intro tried s h; simp [runInner_nil] at h
  | cons t rest ih =>
    intro tried s h
    cases hok : runOk s with
    | false => rw [runInner_cons_stop env ht tgt total t rest tried s hok] at h; simp at h
    | true =>
      by_cases hm : get_hash env t ht = tgt
      · rw [runInner_cons_match env ht tgt total t rest tried s hok hm]
        rw [pcts_append]
        have h2 : pcts [Event.found_match t tgt, Event.progress 100 t] = [100] := rfl
        rw [h2, List.getLast?_append]
        rfl
      · rw [runInner_cons_nomatch env ht tgt total t rest tried s hok hm] at h ⊢
        have hlast := ih (tried + 1) (tick s) h
        rw [pcts_append, List.getLast?_append, hlast]
        rfl

lemma runInner_progress_cur (env : HashEnv) (ht tgt : PyStr) (total : Nat) :
    ∀ (cands : List PyStr) (tried : Nat) (s : Sched) (p : Nat) (cur : PyStr),
      Event.progress p cur ∈ (runInner env ht tgt total cands tried s).events → cur ∈ cands := by
  intro cands
  induction cands with
  | nil => intro tried s p cur h; simp [runInner_nil] at h
  | cons t rest ih =>
    intro tried s p cur h
    cases hok : runOk s with
    | false => rw [runInner_cons_stop env ht tgt total t rest tried s hok] at h; simp at h
    | true =>
      by_cases hm : get_hash env t ht = tgt
      · rw [runInner_cons_match env ht tgt total t rest tried s hok hm] at h
        rcases List.mem_append.mp h with h | h
        · have := mem_throttle h
          have hcur : cur = t := by
            injection this with h1 h2
          rw [hcur]; exact List.mem_cons_self t rest
        · have : Event.progress p cur = Event.found_match t tgt ∨
              Event.progress p cur = Event.progress 100 t := by simpa using h
          rcases this with h' | h'
          · exact absurd h' (by simp)
          · have hcur : cur = t := by injection h' with h1 h2
            rw [hcur]; exact List.mem_cons_self t rest
      · rw [runInner_cons_nomatch env ht tgt total t rest tried s hok hm] at h
        rcases List.mem_append.mp h with h | h
        · have := mem_throttle h
          have hcur : cur = t := by injection this with h1 h2
          rw [hcur]; exact List.mem_cons_self t rest
        · exact List.mem_cons_of_mem t (ih (tried + 1) (tick s) p cur h)

lemma runInner_no_finished (env : HashEnv) (ht tgt : PyStr) (total : Nat) :
    ∀ (cands : List PyStr) (tried : Nat) (s : Sched),
      Event.finished ∉ (runInner env ht tgt total cands tried s).events := by
  intro cands
  induction cands with
  | nil => intro tried s; simp [runInner_nil]
  | cons t rest ih =>
    intro tried s h
    cases hok : runOk s with
    | false => rw [runInner_cons_stop env ht tgt total t rest tried s hok] at h; simp at h
    | true =>
      by_cases hm : get_hash env t ht = tgt
      · rw [runInner_cons_match env ht tgt total t rest tried s hok hm] at h
        rcases List.mem_append.mp h with h | h
        · exact absurd (mem_throttle h) (by simp)
        · simp at h
      · rw [runInner_cons_nomatch env ht tgt total t rest tried s hok hm] at h
        rcases List.mem_append.mp h with h | h
        · exact absurd (mem_throttle h) (by simp)
        · exact ih (tried + 1) (tick s) h

lemma runInner_no_match (env : HashEnv) (ht tgt : PyStr) (total : Nat) :
    ∀ (cands : List PyStr) (tried : Nat) (s : Sched),
      (∀ t ∈ cands, get_hash env t ht ≠ tgt) →
        (runInner env ht tgt total cands tried s).found = none ∧
        ∀ a b, Event.found_match a b ∉ (runInner env ht tgt total cands tried s).events := by
  intro cands
  induction cands with
  | nil =>
    intro tried s _
    exact ⟨rfl, fun a b h => by simp [runInner_nil] at h⟩
  | cons t rest ih =>
    intro tried s hno
    have hm : get_hash env t ht ≠ tgt := hno t (List.mem_cons_self t rest)
    cases hok : runOk s with
    | false =>
      rw [runInner_cons_stop env ht tgt total t rest tried s hok]
      exact ⟨rfl, fun a b h => by simp at h⟩
    | true =>
      have ihr := ih (tried + 1) (tick s) (fun u hu => hno u (List.mem_cons_of_mem t hu))
      rw [runInner_cons_nomatch env ht tgt total t rest tried s hok hm]
      refine ⟨ihr.1, fun a b h => ?_⟩
      rcases List.mem_append.mp h with h | h
      · exact absurd (mem_throttle h) (by simp)
      · exact ihr.2 a b h

lemma runOuter_nil (env : HashEnv) (ht tgt : PyStr) (total tried : Nat) (s : Sched) :
    runOuter env ht tgt total [] tried s = ⟨[], tried, s, none, 0⟩ := rfl

lemma runOuter_cons_stop (env : HashEnv) (ht tgt : PyStr) (total : Nat) (tier : List PyStr)
    (rest : List (List PyStr)) (tried : Nat) (s : Sched) (hok : runOk s = false) :
    runOuter env ht tgt total (tier :: rest) tried s = ⟨[], tried, tick s, none, 0⟩ := by
  simp [runOuter, hok]

lemma runOuter_cons_found (env : HashEnv) (ht tgt : PyStr) (total : Nat) (tier : List PyStr)
    (rest : List (List PyStr)) (tried : Nat) (s : Sched) (hok : runOk s = true)
    (hf : (runInner env ht tgt total tier tried (tick s)).found.isSome = true) :
    runOuter env ht tgt total (tier :: rest) tried s =
      runInner env ht tgt total tier tried (tick s) := by
  simp [runOuter, hok, hf]

lemma runOuter_cons_cont (env : HashEnv) (ht tgt : PyStr) (total : Nat) (tier : List PyStr)
    (rest : List (List PyStr)) (tried : Nat) (s : Sched) (hok : runOk s = true)
    (hf : (runInner env ht tgt total tier tried (tick s)).found.isSome = false) :
    runOuter env ht tgt total (tier :: rest) tried s =
      ⟨(runInner env ht tgt total tier tried (tick s)).events ++
        (runOuter env ht tgt total rest (runInner env ht tgt total tier tried (tick s)).tried
          (runInner env ht tgt total tier tried (tick s)).sched).events,
       (runOuter env ht tgt total rest (runInner env ht tgt total tier tried (tick s)).tried
          (runInner env ht tgt total tier tried (tick s)).sched).tried,
       (runOuter env ht tgt total rest (runInner env ht tgt total tier tried (tick s)).tried
          (runInner env ht tgt total tier tried (tick s)).sched).sched,
       (runOuter env ht tgt total rest (runInner env ht tgt total tier tried (tick s)).tried
          (runInner env ht tgt total tier tried (tick s)).sched).found,
       (runInner env ht tgt total tier tried (tick s)).hashCalls +
        (runOuter env ht tgt total rest (runInner env ht tgt total tier tried (tick s)).tried
          (runInner env ht tgt total tier tried (tick s)).sched).hashCalls⟩ := by
  simp [runOuter, hok, hf]

lemma runOuter_tried_le (env : HashEnv) (ht tgt : PyStr) (total : Nat) :
    ∀ (tiers : List (List PyStr)) (tried : Nat) (s : Sched),
      tried ≤ (runOuter env ht tgt total tiers tried s).tried := by
  intro tiers
  induction tiers with
  | nil => intro tried s; simp [runOuter_nil]
  | cons tier rest ih =>
    intro tried s
    cases hok : runOk s with
    | false => rw [runOuter_cons_stop env ht tgt total tier rest tried s hok]
    | true =>
      cases hf : (runInner env ht tgt total tier tried (tick s)).found.isSome with
      | true =>
        rw [runOuter_cons_found env ht tgt total tier rest tried s hok hf]
        exact runInner_tried_le env ht tgt total tier tried (tick s)
      | false =>
        rw [runOuter_cons_cont env ht tgt total tier rest tried s hok hf]
        exact Nat.le_trans (runInner_tried_le env ht tgt total tier tried (tick s))
          (ih _ _)

lemma runOuter_tried_eq (env : HashEnv) (ht tgt : PyStr) (total : Nat) :
    ∀ (tiers : List (List PyStr)) (tried : Nat) (s : Sched),
      (runOuter env ht tgt total tiers tried s).tried =
        tried + (runOuter env ht tgt total tiers tried s).hashCalls := by
  intro tiers
  induction tiers with
  | nil => intro tried s; simp [runOuter_nil]
  | cons tier rest ih =>
    intro tried s
    cases hok : runOk s with
    | false => rw [runOuter_cons_stop env ht tgt total tier rest tried s hok]; simp
    | true =>
      cases hf : (runInner env ht tgt total tier tried (tick s)).found.isSome with
      | true =>
        rw [runOuter_cons_found env ht tgt total tier rest tried s hok hf]
        exact runInner_tried_eq env ht tgt total tier tried (tick s)
      | false =>
        rw [runOuter_cons_cont env ht tgt total tier rest tried s hok hf]
        dsimp only
        have h1 := runInner_tried_eq env ht tgt total tier tried (tick s)
        have h2 := ih (runInner env ht tgt total tier tried (tick s)).tried
          (runInner env ht tgt total tier tried (tick s)).sched
        omega

lemma runOuter_sched_none (env : HashEnv) (ht tgt : PyStr) (total : Nat) :
    ∀ (tiers : List (List PyStr)) (tried : Nat),
      (runOuter env ht tgt total tiers tried none).sched = none := by
  intro tiers
  induction tiers with
  | nil => intro tried; rfl
  | cons tier rest ih =>
    intro tried
    have hok : runOk none = true := rfl
    cases hf : (runInner env ht tgt total tier tried (tick none)).found.isSome with
    | true =>
      rw [runOuter_cons_found env ht tgt total tier rest tried none hok hf]
      have : tick none = none := rfl
      rw [this] at hf ⊢
      exact runInner_sched_none env ht tgt total tier tried
    | false =>
      rw [runOuter_cons_cont env ht tgt total tier rest tried none hok hf]
      have ht' : tick none = none := rfl
      rw [ht'] at hf ⊢
      rw [runInner_sched_none env ht tgt total tier tried]
      exact ih _

lemma runOuter_budget (env : HashEnv) (ht tgt : PyStr) (total : Nat) :
    ∀ (tiers : List (List PyStr)) (tried k : Nat),
      ∃ k', (runOuter env ht tgt total tiers tried (some k)).sched = some k' ∧
        (runOuter env ht tgt total tiers tried (some k)).tried + k' ≤ tried + k := by
  intro tiers
  induction tiers with
  | nil => intro tried k; exact ⟨k, rfl, le_refl _⟩
  | cons tier rest ih =>
    intro tried k
    cases k with
    | zero =>
      have hok : runOk (some 0) = false := rfl
      rw [runOuter_cons_stop env ht tgt total tier rest tried (some 0) hok]
      exact ⟨0, rfl, le_refl _⟩
    | succ k =>
      have hok : runOk (some (k + 1)) = true := rfl
      have htick : tick (some (k + 1)) = some k := rfl
      cases hf : (runInner env ht tgt total tier tried (tick (some (k + 1)))).found.isSome with
      | true =>
        rw [runOuter_cons_found env ht tgt total tier rest tried (some (k + 1)) hok hf]
        rw [htick]
        obtain ⟨k', h1, h2⟩ := runInner_budget env ht tgt total tier tried k
        exact ⟨k', h1, by omega⟩
      | false =>
        rw [runOuter_cons_cont env ht tgt total tier rest tried (some (k + 1)) hok hf]
        rw [htick] at hf ⊢
        obtain ⟨k1, h1, h2⟩ := runInner_budget env ht tgt total tier tried k
        rw [h1]
        dsimp only
        obtain ⟨k2, h3, h4⟩ := ih (runInner env ht tgt total tier tried (some k)).tried k1
        exact ⟨k2, h3, by omega⟩

lemma runOuter_pcts_form (env : HashEnv) (ht tgt : PyStr) (total : Nat) :
    ∀ (tiers : List (List PyStr)) (tried : Nat) (s : Sched),
      ∀ p ∈ pcts (runOuter env ht tgt total tiers tried s).events,
        (∃ u, tried < u ∧ u ≤ (runOuter env ht tgt total tiers tried s).tried ∧
          (u % 10000 = 0 ∨ u = total) ∧ p = min 100 (u * 100 / total)) ∨
        ((runOuter env ht tgt total tiers tried s).found.isSome ∧ p = 100) := by
  intro tiers
  induction tiers with
  | nil => intro tried s p hp; simp [runOuter_nil] at hp
  | cons tier rest ih =>
    intro tried s p hp
    cases hok : runOk s with
    | false => rw [runOuter_cons_stop env ht tgt total tier rest tried s hok] at hp; simp at hp
    | true =>
      cases hf : (runInner env ht tgt total tier tried (tick s)).found.isSome with
      | true =>
        rw [runOuter_cons_found env ht tgt total tier rest tried s hok hf] at hp ⊢
        exact runInner_pcts_form env ht tgt total tier tried (tick s) p hp
      | false =>
        rw [runOuter_cons_cont env ht tgt total tier rest tried s hok hf] at hp ⊢
        dsimp only at hp ⊢
        rw [pcts_append] at hp
        rcases List.mem_append.mp hp with hp | hp
        · rcases runInner_pcts_form env ht tgt total tier tried (tick s) p hp with
            ⟨u, hu1, hu2, hu3, hu4⟩ | ⟨hsome, _⟩
          · refine Or.inl ⟨u, hu1, ?_, hu3, hu4⟩
            exact Nat.le_trans hu2 (runOuter_tried_le env ht tgt total rest _ _)
          · rw [hf] at hsome; exact absurd hsome (by simp)
        · rcases ih (runInner env ht tgt total tier tried (tick s)).tried
            (runInner env ht tgt total tier tried (tick s)).sched p hp with
            ⟨u, hu1, hu2, hu3, hu4⟩ | h
          · refine Or.inl ⟨u, ?_, hu2, hu3, hu4⟩
            exact Nat.lt_of_le_of_lt (runInner_tried_le env ht tgt total tier tried (tick s)) hu1
          · exact Or.inr h

lemma runOuter_pcts_pairwise (env : HashEnv) (ht tgt : PyStr) (total : Nat) :
    ∀ (tiers : List (List PyStr)) (tried : Nat) (s : Sched),
      (pcts (runOuter env ht tgt total tiers tried s).events).Pairwise (· ≤ ·) := by
  intro tiers
  induction tiers with
  | nil => intro tried s; simp [runOuter_nil]
  | cons tier rest ih =>
    intro tried s
    cases hok : runOk s with
    | false => rw [runOuter_cons_stop env ht tgt total tier rest tried s hok]; simp
    | true =>
      cases hf : (runInner env ht tgt total tier tried (tick s)).found.isSome with
      | true =>
        rw [runOuter_cons_found env ht tgt total tier rest tried s hok hf]
        exact runInner_pcts_pairwise env ht tgt total tier tried (tick s)
      | false =>
        rw [runOuter_cons_cont env ht tgt total tier rest tried s hok hf]
        dsimp only
        rw [pcts_append]
        refine List.pairwise_append.mpr
          ⟨runInner_pcts_pairwise env ht tgt total tier tried (tick s), ih _ _, ?_⟩
        intro a ha b hb
        rcases runInner_pcts_form env ht tgt total tier tried (tick s) a ha with
          ⟨u, _, hu2, _, rfl⟩ | ⟨hsome, _⟩
        · rcases runOuter_pcts_form env ht tgt total rest
            (runInner env ht tgt total tier tried (tick s)).tried
            (runInner env ht tgt total tier tried (tick s)).sched b hb with
            ⟨v, hv1, _, _, rfl⟩ | ⟨_, rfl⟩
          · exact minPct_mono (by omega)
          · exact min_le_left _ _
        · rw [hf] at hsome; exact absurd hsome (by simp)

lemma runOuter_found_last (env : HashEnv) (ht tgt : PyStr) (total : Nat) :
    ∀ (tiers : List (List PyStr)) (tried : Nat) (s : Sched),
      (runOuter env ht tgt total tiers tried s).found.isSome →
        (pcts (runOuter env ht tgt total tiers tried s).events).getLast? = some 100 := by
  intro tiers
  induction tiers with
  | nil => intro tried s h; simp [runOuter_nil] at h
  | cons tier rest ih =>
    intro tried s h
    cases hok : runOk s with
    | false => rw [runOuter_cons_stop env ht tgt total tier rest tried s hok] at h; simp at h
    | true =>
      cases hf : (runInner env ht tgt total tier tried (tick s)).found.isSome with
      | true =>
        rw [runOuter_cons_found env ht tgt total tier rest tried s hok hf]
        exact runInner_found_last env ht tgt total tier tried (tick s) hf
      | false =>
        rw [runOuter_cons_cont env ht tgt total tier rest tried s hok hf] at h ⊢
        dsimp only at h ⊢
        have hlast := ih (runInner env ht tgt total tier tried (tick s)).tried
          (runInner env ht tgt total tier tried (tick s)).sched h
        rw [pcts_append, List.getLast?_append, hlast]
        rfl

lemma runOuter_progress_cur (env : HashEnv) (ht tgt : PyStr) (total : Nat) :
    ∀ (tiers : List (List PyStr)) (tried : Nat) (s : Sched) (p : Nat) (cur : PyStr),
      Event.progress p cur ∈ (runOuter env ht tgt total tiers tried s).events →
        ∃ tier ∈ tiers, cur ∈ tier := by
  intro tiers
  induction tiers with
  | nil => intro tried s p cur h; simp [runOuter_nil] at h
  | cons tier rest ih =>
    intro tried s p cur h
    cases hok : runOk s with
    | false => rw [runOuter_cons_stop env ht tgt total tier rest tried s hok] at h; simp at h
    | true =>
      cases hf : (runInner env ht tgt total tier tried (tick s)).found.isSome with
      | true =>
        rw [runOuter_cons_found env ht tgt total tier rest tried s hok hf] at h
        exact ⟨tier, List.mem_cons_self tier rest,
          runInner_progress_cur env ht tgt total tier tried (tick s) p cur h⟩
      | false =>
        rw [runOuter_cons_cont env ht tgt total tier rest tried s hok hf] at h
        dsimp only at h
        rcases List.mem_append.mp h with h | h
        · exact ⟨tier, List.mem_cons_self tier rest,
            runInner_progress_cur env ht tgt total tier tried (tick s) p cur h⟩
        · obtain ⟨tier', h1, h2⟩ := ih _ _ p cur h
          exact ⟨tier', List.mem_cons_of_mem tier h1, h2⟩

lemma runOuter_no_finished (env : HashEnv) (ht tgt : PyStr) (total : Nat) :
    ∀ (tiers : List (List PyStr)) (tried : Nat) (s : Sched),
      Event.finished ∉ (runOuter env ht tgt total tiers tried s).events := by
  intro tiers
  induction tiers with
  | nil => intro tried s; simp [runOuter_nil]
  | cons tier rest ih =>
    intro tried s h
    cases hok : runOk s with
    | false => rw [runOuter_cons_stop env ht tgt total tier rest tried s hok] at h; simp at h
    | true =>
      cases hf : (runInner env ht tgt total tier tried (tick s)).found.isSome with
      | true =>
        rw [runOuter_cons_found env ht tgt total tier rest tried s hok hf] at h
        exact runInner_no_finished env ht tgt total tier tried (tick s) h
      | false =>
        rw [runOuter_cons_cont env ht tgt total tier rest tried s hok hf] at h
        dsimp only at h
        rcases List.mem_append.mp h with h | h
        · exact runInner_no_finished env ht tgt total tier tried (tick s) h
        · exact ih _ _ h

lemma runOuter_no_match (env : HashEnv) (ht tgt : PyStr) (total : Nat) :
    ∀ (tiers : List (List PyStr)) (tried : Nat) (s : Sched),
      (∀ tier ∈ tiers, ∀ t ∈ tier, get_hash env t ht ≠ tgt) →
        (runOuter env ht tgt total tiers tried s).found = none ∧
        ∀ a b, Event.found_match a b ∉ (runOuter env ht tgt total tiers tried s).events := by
  intro tiers
  induction tiers with
  | nil =>
    intro tried s _
    exact ⟨rfl, fun a b h => by simp [runOuter_nil] at h⟩
  | cons tier rest ih =>
    intro tried s hno
    have hin := runInner_no_match env ht tgt total tier tried (tick s)
      (hno tier (List.mem_cons_self tier rest))
    cases hok : runOk s with
    | false =>
      rw [runOuter_cons_stop env ht tgt total tier rest tried s hok]
      exact ⟨rfl, fun a b h => by simp at h⟩
    | true =>
      have hf : (runInner env ht tgt total tier tried (tick s)).found.isSome = false := by
        rw [hin.1]; rfl
      rw [runOuter_cons_cont env ht tgt total tier rest tried s hok hf]
      dsimp only
      have ihr := ih (runInner env ht tgt total tier tried (tick s)).tried
        (runInner env ht tgt total tier tried (tick s)).sched
        (fun u hu => hno u (List.mem_cons_of_mem tier hu))
      refine ⟨ihr.1, fun a b h => ?_⟩
      rcases List.mem_append.mp h with h | h
      · exact hin.2 a b h
      · exact ihr.2 a b h

lemma finishRun_matched (o : StreamOut) (r : PyStr × PyStr) (hf : o.found = some r) :
    finishRun o = ⟨o.events ++ [Event.finished], o.tried, Outcome.matched, some r,
      o.hashCalls⟩ := by
  simp [finishRun, hf]

lemma finishRun_exhausted (o : StreamOut) (hf : o.found = none) (hok : runOk o.sched = true) :
    finishRun o = ⟨o.events ++ [Event.progress 100 [], Event.finished], o.tried,
      Outcome.exhausted, none, o.hashCalls⟩ := by
  simp [finishRun, hf, hok]

lemma finishRun_cancelled (o : StreamOut) (hf : o.found = none) (hok : runOk o.sched = false) :
    finishRun o = ⟨o.events ++ [Event.finished], o.tried, Outcome.cancelled, none,
      o.hashCalls⟩ := by
  simp [finishRun, hf, hok]

lemma finishRun_tried (o : StreamOut) : (finishRun o).tried = o.tried := by
  cases hf : o.found with
  | some r => rw [finishRun_matched o r hf]
  | none =>
    cases hok : runOk o.sched with
    | true => rw [finishRun_exhausted o hf hok]
    | false => rw [finishRun_cancelled o hf hok]

lemma finishRun_hashCalls (o : StreamOut) : (finishRun o).hashCalls = o.hashCalls := by
  cases hf : o.found with
  | some r => rw [finishRun_matched o r hf]
  | none =>
    cases hok : runOk o.sched with
    | true => rw [finishRun_exhausted o hf hok]
    | false => rw [finishRun_cancelled o hf hok]

@[simp] lemma pcts_concat_finished (l : List Event) :
    pcts (l ++ [Event.finished]) = pcts l := by
  rw [pcts_append]; simp

@[simp] lemma pcts_concat_forced (l : List Event) :
    pcts (l ++ [Event.progress 100 [], Event.finished]) = pcts l ++ [100] := by
  rw [pcts_append]; rfl

/-- C5: within one brute-force job, the percent values of consecutive
progress events are monotonically non-decreasing; every emitted percent
is either the forced terminal value 100 or `min(100,
floor(triedCount * 100 / totalCount))` for a `triedCount` that hit a
reporting threshold; and the final progress event carries exactly 100
whenever the job ends `matched` or `exhausted`.  This holds for every
configuration and every cancellation schedule. -/
theorem C5_progress_monotone (cfg : BFCfg) (s : Sched) :
    (pcts (bfRun cfg s).events).Pairwise (· ≤ ·) ∧
    (∀ p ∈ pcts (bfRun cfg s).events, p = 100 ∨
      ∃ u, 0 < u ∧ u ≤ (bfRun cfg s).tried ∧
        (u % 10000 = 0 ∨ u = bfTotal cfg.char_set cfg.min_length cfg.max_length) ∧
        p = min 100 (u * 100 / bfTotal cfg.char_set cfg.min_length cfg.max_length)) ∧
    ((bfRun cfg s).outcome = Outcome.matched ∨ (bfRun cfg s).outcome = Outcome.exhausted →
      (pcts (bfRun cfg s).events).getLast? = some 100) := by
  rw [bfRun]
  set total := bfTotal cfg.char_set cfg.min_length cfg.max_length with htot
  set o := bfOuter cfg s with ho
  have hform := runOuter_pcts_form cfg.env cfg.hash_type cfg.target_hash total
    (bfTiers cfg.char_set cfg.min_length cfg.max_length) 0 s
  have hpair := runOuter_pcts_pairwise cfg.env cfg.hash_type cfg.target_hash total
    (bfTiers cfg.char_set cfg.min_length cfg.max_length) 0 s
  rw [show runOuter cfg.env cfg.hash_type cfg.target_hash total
    (bfTiers cfg.char_set cfg.min_length cfg.max_length) 0 s = o from rfl] at hform hpair
  cases hf : o.found with
  | some r =>
    rw [finishRun_matched o r hf]
    dsimp only
    rw [pcts_concat_finished]
    refine ⟨hpair, ?_, ?_⟩
    · intro p hp
      rcases hform p hp with ⟨u, hu1, hu2, hu3, hu4⟩ | ⟨_, rfl⟩
      · exact Or.inr ⟨u, hu1, hu2, hu3, hu4⟩
      · exact Or.inl rfl
    · intro _
      refine runOuter_found_last cfg.env cfg.hash_type cfg.target_hash total
        (bfTiers cfg.char_set cfg.min_length cfg.max_length) 0 s ?_
      rw [show runOuter cfg.env cfg.hash_type cfg.target_hash total
        (bfTiers cfg.char_set cfg.min_length cfg.max_length) 0 s = o from rfl, hf]
      rfl
  | none =>
    cases hok : runOk o.sched with
    | true =>
      rw [finishRun_exhausted o hf hok]
      dsimp only
      rw [pcts_concat_forced]
      refine ⟨?_, ?_, ?_⟩
      · refine List.pairwise_append.mpr ⟨hpair, by simp, ?_⟩
        intro a ha b hb
        rw [show b = 100 from by simpa using hb]
        rcases hform a ha with ⟨u, _, _, _, rfl⟩ | ⟨_, rfl⟩
        · exact min_le_left _ _
        · exact le_refl _
      · intro p hp
        rcases List.mem_append.mp hp with hp | hp
        · rcases hform p hp with ⟨u, hu1, hu2, hu3, hu4⟩ | ⟨_, rfl⟩
          · exact Or.inr ⟨u, hu1, hu2, hu3, hu4⟩
          · exact Or.inl rfl
        · exact Or.inl (by simpa using hp)
      · intro _
        exact List.getLast?_concat _
    | false =>
      rw [finishRun_cancelled o hf hok]
      dsimp only
      rw [pcts_concat_finished]
      refine ⟨hpair, ?_, ?_⟩
      · intro p hp
        rcases hform p hp with ⟨u, hu1, hu2, hu3, hu4⟩ | ⟨_, rfl⟩
        · exact Or.inr ⟨u, hu1, hu2, hu3, hu4⟩
        · exact Or.inl rfl
      · rintro (h | h) <;> exact absurd h (by simp)

/-- A concrete hashlib environment for witnesses: no custom function,
`md5` available, every digest `"beef"`, MD5 fallback `"00"`. -/
def sampleEnv : HashEnv :=
  ⟨fun _ => pstr "00", [pstr "md5"], fun _ _ => some (pstr "beef"), none⟩

/-- A concrete brute-force worker: MD5, target `"ff"` (never matched by
`sampleEnv`), charset `"ab"`, lengths 1..2. -/
def sampleCfg : BFCfg := mkBruteForceWorker sampleEnv (pstr "MD5") (pstr "ff") (pstr "ab") 1 2

/-- Witness for C5 on a concrete exhausted run. -/
theorem C5_progress_monotone_witness :
    (bfRun sampleCfg none).outcome = Outcome.exhausted ∧
    (pcts (bfRun sampleCfg none).events).getLast? = some 100 :=
  ⟨by decide, (C5_progress_monotone sampleCfg none).2.2 (Or.inr (by decide))⟩

/-- C6: for every brute-force run under a cancellation schedule that
allows only `k` positive flag reads, the worker tries and hashes at most
`k` candidates (it observes the cleared flag at least once per candidate
and stops before producing or hashing the next one); when the run ends
`cancelled` it never emits the forced `progress(100, "")` event (for
`min_length ≥ 1` the only progress event with an empty candidate); and
`finished_task` is emitted exactly once. -/
theorem C6_cancellation (cfg : BFCfg) (k : Nat) (hmin : 1 ≤ cfg.min_length) :
    (bfRun cfg (some k)).tried ≤ k ∧
    (bfRun cfg (some k)).hashCalls ≤ k ∧
    ((bfRun cfg (some k)).outcome = Outcome.cancelled →
      ∀ p, Event.progress p [] ∉ (bfRun cfg (some k)).events) ∧
    (bfRun cfg (some k)).events.count Event.finished = 1 := by
  rw [bfRun]
  set total := bfTotal cfg.char_set cfg.min_length cfg.max_length with htot
  set tiers := bfTiers cfg.char_set cfg.min_length cfg.max_length with htiers
  set o := bfOuter cfg (some k) with ho
  have hoeq : runOuter cfg.env cfg.hash_type cfg.target_hash total tiers 0 (some k) = o := rfl
  obtain ⟨k', hk1, hk2⟩ := runOuter_budget cfg.env cfg.hash_type cfg.target_hash total tiers 0 k
  rw [hoeq] at hk1 hk2
  have htr : o.tried ≤ k := by omega
  have hhceq := runOuter_tried_eq cfg.env cfg.hash_type cfg.target_hash total tiers 0 (some k)
  rw [hoeq] at hhceq
  have hhc : o.hashCalls ≤ k := by omega
  have hnf := runOuter_no_finished cfg.env cfg.hash_type cfg.target_hash total tiers 0 (some k)
  rw [hoeq] at hnf
  have hcount0 : o.events.count Event.finished = 0 := List.count_eq_zero.mpr hnf
  cases hf : o.found with
  | some r =>
    rw [finishRun_matched o r hf]
    dsimp only
    refine ⟨htr, hhc, fun hout => absurd hout (by simp), ?_⟩
    rw [List.count_append, hcount0]
    rfl
  | none =>
    cases hok : runOk o.sched with
    | true =>
      rw [finishRun_exhausted o hf hok]
      dsimp only
      refine ⟨htr, hhc, fun hout => absurd hout (by simp), ?_⟩
      rw [List.count_append, hcount0]
      rfl
    | false =>
      rw [finishRun_cancelled o hf hok]
      dsimp only
      refine ⟨htr, hhc, fun _ p hmem => ?_, ?_⟩
      · rcases List.mem_append.mp hmem with hmem | hmem
        · obtain ⟨tier, htier, hcur⟩ := runOuter_progress_cur cfg.env cfg.hash_type
            cfg.target_hash total tiers 0 (some k) p [] (by rw [hoeq]; exact hmem)
          rw [htiers, bfTiers] at htier
          obtain ⟨L, hL, rfl⟩ := List.mem_map.mp htier
          have hlen := mem_productRepeat_length hcur
          have hLb := List.mem_range'_1.mp hL
          simp only [List.length_nil] at hlen
          omega
        · simp at hmem
      · rw [List.count_append, hcount0]
        rfl

/-- Witness for C6: charset `"ab"`, lengths 1..2, schedule of 3 positive
reads; the run is cancelled after two candidates. -/
theorem C6_cancellation_witness :
    1 ≤ sampleCfg.min_length ∧
    (bfRun sampleCfg (some 3)).tried ≤ 3 ∧
    (bfRun sampleCfg (some 3)).outcome = Outcome.cancelled ∧
    Event.progress 100 [] ∉ (bfRun sampleCfg (some 3)).events :=
  ⟨by decide, (C6_cancellation sampleCfg 3 (by decide)).1, by decide,
    (C6_cancellation sampleCfg 3 (by decide)).2.2.1 (by decide) 100⟩

lemma pyLower_no_upper {x : Nat} {l : PyStr} (hx : x ∈ pyLower l) : ¬(65 ≤ x ∧ x ≤ 90) := by
  obtain ⟨y, _, rfl⟩ := List.mem_map.mp hx
  rw [lowerCp]
  by_cases h : 65 ≤ y ∧ y ≤ 90
  · rw [if_pos h]; omega
  · rw [if_neg h]; omega

lemma get_hash_custom (env : HashEnv) (f : CustomFn) (text ht : PyStr)
    (hcust : env.custom = some f) (hht : pyLower ht = pstr "custom") :
    get_hash env text ht = applyCustom env f text := by
  rw [get_hash, hcust, hht]
  simp

/-- C9: the target digest is lowercased once at `BruteForceWorker`
construction (`mkBruteForceWorker`), but the digest computed for each
candidate is compared raw; consequently, for the CUSTOM algorithm,
whenever the loaded custom hash function returns a string containing an
uppercase ASCII letter, no candidate ever matches — even when the
digest equals the target up to letter case. -/
theorem C9_uppercase_digest_never_matches (env : HashEnv) (f : CustomFn)
    (ht target cs : PyStr) (minL maxL : Nat) (s : Sched)
    (hcust : env.custom = some f) (hht : pyLower ht = pstr "custom")
    (hup : ∀ t : PyStr, ∃ d, f t = PyResult.ok (PyValue.str d) ∧ ∃ x ∈ d, 65 ≤ x ∧ x ≤ 90) :
    (∀ a b, Event.found_match a b ∉
      (bfRun (mkBruteForceWorker env ht target cs minL maxL) s).events) ∧
    (bfRun (mkBruteForceWorker env ht target cs minL maxL) s).outcome ≠ Outcome.matched := by
  have hne : ∀ t : PyStr, get_hash env t ht ≠ pyLower target := by
    intro t heq
    obtain ⟨d, hd, x, hxd, hx⟩ := hup t
    have happ : applyCustom env f t = d := by simp [applyCustom, hd]
    rw [get_hash_custom env f t ht hcust hht, happ] at heq
    exact pyLower_no_upper (heq ▸ hxd) hx
  rw [bfRun]
  set total := bfTotal cs minL maxL with htot
  set tiers := bfTiers cs minL maxL with htiers
  set o := bfOuter (mkBruteForceWorker env ht target cs minL maxL) s with ho
  have hoeq : runOuter env ht (pyLower target) total tiers 0 s = o := rfl
  have hnm := runOuter_no_match env ht (pyLower target) total tiers 0 s
    (fun tier _ t _ => hne t)
  rw [hoeq] at hnm
  cases hok : runOk o.sched with
  | true =>
    rw [finishRun_exhausted o hnm.1 hok]
    dsimp only
    refine ⟨fun a b hmem => ?_, by simp⟩
    rcases List.mem_append.mp hmem with hmem | hmem
    · exact hnm.2 a b hmem
    · simp at hmem
  | false =>
    rw [finishRun_cancelled o hnm.1 hok]
    dsimp only
    refine ⟨fun a b hmem => ?_, by simp⟩
    rcases List.mem_append.mp hmem with hmem | hmem
    · exact hnm.2 a b hmem
    · simp at hmem

/-- A custom hash function that always returns the uppercase string
`"ABC"`. -/
def upperFn : CustomFn := fun _ => PyResult.ok (PyValue.str (pstr "ABC"))

/-- Environment whose custom slot holds `upperFn`. -/
def upperEnv : HashEnv := ⟨fun _ => pstr "00", [], fun _ _ => none, some upperFn⟩

/-- Witness for C9: target `"abc"` equals the constant digest `"ABC"` up
to case, yet the job never matches. -/
theorem C9_uppercase_digest_never_matches_witness :
    upperEnv.custom = some upperFn ∧ pyLower (pstr "CUSTOM") = pstr "custom" ∧
    (bfRun (mkBruteForceWorker upperEnv (pstr "CUSTOM") (pstr "abc") (pstr "a") 1 1)
      none).outcome ≠ Outcome.matched :=
  ⟨rfl, by decide,
    (C9_uppercase_digest_never_matches upperEnv upperFn (pstr "CUSTOM") (pstr "abc")
      (pstr "a") 1 1 none rfl (by decide)
      (fun t => ⟨pstr "ABC", rfl, by decide⟩)).2⟩

lemma get_hash_of_none (env : HashEnv) (text ht : PyStr) (hc : env.custom = none) :
    get_hash env text ht = getHashBuiltin env text (pyLower ht) := by
  simp [get_hash, hc]

lemma get_hash_of_not_custom (env : HashEnv) (f : CustomFn) (text ht : PyStr)
    (hc : env.custom = some f) (hne : pyLower ht ≠ pstr "custom") :
    get_hash env text ht = getHashBuiltin env text (pyLower ht) := by
  simp [get_hash, hc, hne]

/-- Environment whose custom function returns the non-string value `5`
(whose `str()` conversion is `"5"`). -/
def nonstrEnv : HashEnv :=
  ⟨fun _ => pstr "99", [], fun _ _ => none, some (fun _ => PyResult.ok (PyValue.nonstr (pstr "5")))⟩

/-- Counterexample to C2: when the custom hash function returns the
non-string value `5`, `get_hash` returns `str(5) = "5"`, not the MD5
digest of the input, so the claimed MD5 fallback on a non-string return
does not hold. -/
theorem C2_nonstring_counterexample :
    get_hash nonstrEnv (pstr "x") (pstr "CUSTOM") = pstr "5" ∧
    nonstrEnv.md5Hex (pstr "x") = pstr "99" ∧
    pstr "5" ≠ pstr "99" :=
  ⟨by decide, rfl, by decide⟩

/-- C2 amended: `get_hash` never raises (it is a total function of the
model); when the custom function raises it falls back to the MD5 digest
of the input, but when the custom function returns a non-string value it
returns the `str()` conversion of that value rather than the MD5
fallback; a string result is returned as is. -/
theorem C2_get_hash_fallback (env : HashEnv) (f : CustomFn) (text ht : PyStr)
    (hcust : env.custom = some f) (hht : pyLower ht = pstr "custom") :
    (f text = PyResult.exc → get_hash env text ht = env.md5Hex text) ∧
    (∀ s, f text = PyResult.ok (PyValue.str s) → get_hash env text ht = s) ∧
    (∀ r, f text = PyResult.ok (PyValue.nonstr r) → get_hash env text ht = r) := by
  rw [get_hash_custom env f text ht hcust hht]
  exact ⟨fun h => by simp [applyCustom, h], fun s h => by simp [applyCustom, h],
    fun r h => by simp [applyCustom, h]⟩

/-- Environment whose custom function always raises. -/
def excEnv : HashEnv := ⟨fun _ => pstr "99", [], fun _ _ => none, some (fun _ => PyResult.exc)⟩

/-- Witness for C2 amended: a raising custom function falls back to MD5. -/
theorem C2_get_hash_fallback_witness :
    excEnv.custom = some (fun _ => PyResult.exc) ∧
    pyLower (pstr "CUSTOM") = pstr "custom" ∧
    get_hash excEnv (pstr "x") (pstr "CUSTOM") = excEnv.md5Hex (pstr "x") :=
  ⟨rfl, by decide,
    (C2_get_hash_fallback excEnv (fun _ => PyResult.exc) (pstr "x") (pstr "CUSTOM") rfl
      (by decide)).1 rfl⟩

/-- Counterexample to C3: the unbound algorithm id `"NOSUCHALGO"` is not
rejected anywhere — `start_bruteforce` constructs and starts a worker
for it, and `get_hash` silently digests with the MD5 substitute instead
of failing. -/
theorem C3_unknown_algorithm_counterexample :
    start_bruteforce (pstr "ff") (pstr "NOSUCHALGO") (pstr "ab") 1 2 =
      StartResult.started (pstr "NOSUCHALGO") (pstr "ff") (pstr "ab") 1 2 ∧
    get_hash sampleEnv (pstr "a") (pstr "NOSUCHALGO") = sampleEnv.md5Hex (pstr "a") ∧
    sampleEnv.md5Hex (pstr "a") = pstr "00" :=
  ⟨by decide, by decide, rfl⟩

/-- C3 amended: there is no `UnknownAlgorithm` failure.  For any
algorithm id that is not the loaded custom id, not a BLAKE2 or SHAKE
name, and not in `hashlib.algorithms_available`, `get_hash` silently
substitutes the MD5 digest; and `start_bruteforce` accepts any algorithm
id without validation, so a job with an unknown algorithm enters Running
and every candidate is digested with the MD5 substitute. -/
theorem C3_silent_md5_substitution (env : HashEnv) (text algo : PyStr)
    (hnc : pyLower algo = pstr "custom" → env.custom = none)
    (hnb : ¬ pstr "blake2" <+: pyLower algo)
    (hns : ¬ pstr "shake" <:+: pyLower algo)
    (hna : pyLower algo ∉ env.availableAlgorithms) :
    get_hash env text algo = env.md5Hex text ∧
    ∀ (target cs : PyStr) (minL maxL : Nat),
      pyStrip target ≠ [] → cs ≠ [] → minL ≤ maxL →
        start_bruteforce target algo cs minL maxL =
          StartResult.started algo target cs minL maxL := by
  constructor
  · have hb : getHashBuiltin env text (pyLower algo) = env.md5Hex text := by
      rw [getHashBuiltin, if_neg hnb, if_neg hns, if_neg hna]
    cases hc : env.custom with
    | none => rw [get_hash_of_none env text algo hc, hb]
    | some f =>
      have hne : pyLower algo ≠ pstr "custom" := fun h => by
        rw [hnc h] at hc; exact Option.noConfusion hc
      rw [get_hash_of_not_custom env f text algo hc hne, hb]
  · intro target cs minL maxL h1 h2 h3
    rw [start_bruteforce, if_neg h1, if_neg h2, if_neg (by omega)]

/-- Witness for C3 amended at the concrete id `"NOSUCHALGO"`. -/
theorem C3_silent_md5_substitution_witness :
    (¬ pstr "blake2" <+: pyLower (pstr "NOSUCHALGO")) ∧
    get_hash sampleEnv (pstr "a") (pstr "NOSUCHALGO") = sampleEnv.md5Hex (pstr "a") ∧
    start_bruteforce (pstr "ff") (pstr "NOSUCHALGO") (pstr "ab") 1 2 =
      StartResult.started (pstr "NOSUCHALGO") (pstr "ff") (pstr "ab") 1 2 :=
  ⟨by decide,
    (C3_silent_md5_substitution sampleEnv (pstr "a") (pstr "NOSUCHALGO")
      (fun h => absurd h (by decide)) (by decide) (by decide) (by decide)).1,
    (C3_silent_md5_substitution sampleEnv (pstr "a") (pstr "NOSUCHALGO")
      (fun h => absurd h (by decide)) (by decide) (by decide) (by decide)).2
      (pstr "ff") (pstr "ab") 1 2 (by decide) (by decide) (by decide)⟩

/-- C4: on the charset tab (with a nonempty target), an empty charset
fails fast with the empty-charset error and `minLength > maxLength`
fails with the range error, both before any worker is constructed, so no
job enters Running and no candidate is counted or enumerated. -/
theorem C4_config_errors_before_start (target ht cs : PyStr) (minL maxL : Nat)
    (htarget : pyStrip target ≠ []) :
    (cs = [] → start_bruteforce target ht cs minL maxL =
      StartResult.error ConfigError.EmptyCharset) ∧
    (cs ≠ [] → maxL < minL → start_bruteforce target ht cs minL maxL =
      StartResult.error ConfigError.InvalidRange) ∧
    (∀ e, start_bruteforce target ht cs minL maxL = StartResult.error e →
      ∀ (ht' target' cs' : PyStr) (minL' maxL' : Nat),
        start_bruteforce target ht cs minL maxL ≠
          StartResult.started ht' target' cs' minL' maxL') := by
  refine ⟨?_, ?_, ?_⟩
  · intro h2
    rw [start_bruteforce, if_neg htarget, if_pos h2]
  · intro h2 h3
    rw [start_bruteforce, if_neg htarget, if_neg h2, if_pos h3]
  · intro e he ht' target' cs' minL' maxL' hs
    rw [he] at hs
    exact StartResult.noConfusion hs

/-- Witness for C4: empty charset is rejected with the empty-charset
error before any worker exists. -/
theorem C4_config_errors_before_start_witness :
    pyStrip (pstr "ff") ≠ [] ∧
    start_bruteforce (pstr "ff") (pstr "MD5") [] 2 1 =
      StartResult.error ConfigError.EmptyCharset :=
  ⟨by decide,
    (C4_config_errors_before_start (pstr "ff") (pstr "MD5") [] 2 1 (by decide)).1 rfl⟩

/-- Custom function returning the constant string `"a"`. -/
def fnA : CustomFn := fun _ => PyResult.ok (PyValue.str (pstr "a"))

/-- Custom function returning the constant string `"b"`. -/
def fnB : CustomFn := fun _ => PyResult.ok (PyValue.str (pstr "b"))

/-- Counterexample to C8: after `fnA` is loaded into the CUSTOM slot, a
second load of the different function `fnB` succeeds and replaces the
binding, so `"CUSTOM"` is not limited to one rebinding. -/
theorem C8_rebinding_counterexample :
    (load_custom_hash_function (load_custom_hash_function none fnA).1 fnB).1 = some fnB ∧
    (load_custom_hash_function (load_custom_hash_function none fnA).1 fnB).2 = true ∧
    fnB ≠ fnA := by
  refine ⟨rfl, rfl, fun h => ?_⟩
  have h2 := congrFun h (pstr "x")
  simp only [fnA, fnB, PyResult.ok.injEq, PyValue.str.injEq] at h2
  exact absurd h2 (by decide)

/-- C8 amended: every load whose test invocation on `"test"` succeeds
rebinds the CUSTOM slot to the new function, replacing whatever was
bound before, with no limit on the number of rebinds. -/
theorem C8_custom_rebinding (slot : Option CustomFn) (f : CustomFn) (v : PyValue)
    (hv : f (pstr "test") = PyResult.ok v) :
    load_custom_hash_function slot f = (some f, true) := by
  simp [load_custom_hash_function, hv]

/-- Witness for C8 amended: loading `fnA` over the binding `fnB`
succeeds and replaces it. -/
theorem C8_custom_rebinding_witness :
    fnA (pstr "test") = PyResult.ok (PyValue.str (pstr "a")) ∧
    load_custom_hash_function (some fnB) fnA = (some fnA, true) :=
  ⟨rfl, C8_custom_rebinding (some fnB) fnA (PyValue.str (pstr "a")) rfl⟩

lemma finishRun_found (o : StreamOut) : (finishRun o).found = o.found := by
  cases hf : o.found with
  | some r => rw [finishRun_matched o r hf]
  | none =>
    cases hok : runOk o.sched with
    | true => rw [finishRun_exhausted o hf hok]
    | false => rw [finishRun_cancelled o hf hok]

@[simp] lemma runOk_none : runOk none = true := rfl

@[simp] lemma tick_none : tick none = none := rfl

lemma rbLoop_found_eq (target : PyStr) (total : Nat) :
    ∀ (lines : List PyStr) (tried : Nat),
      (rbLoop (pyLower target) total lines tried none).found =
        rainbowLookupSpec target lines := by
  intro lines
  induction lines with
  | nil => intro tried; rfl
  | cons line rest ih =>
    intro tried
    by_cases hblank : pyStrip line = ([] : List Nat)
    · have hnc : (58 : Nat) ∉ pyStrip line := by rw [hblank]; simp
      simp [rbLoop, hblank, rainbowLookupSpec, splitFirstColon, hnc, ih]
    · by_cases hcolon : (58 : Nat) ∈ pyStrip line
      · by_cases hmatch : pyLower (pySplitOnceColon (pyStrip line)).1 = pyLower target
        · simp [rbLoop, hblank, hcolon, rainbowLookupSpec, splitFirstColon, hmatch]
        · simp [rbLoop, hblank, hcolon, rainbowLookupSpec, splitFirstColon, hmatch, ih]
      · simp [rbLoop, hblank, hcolon, rainbowLookupSpec, splitFirstColon, ih]

lemma rbLoop_hashCalls (tgt : PyStr) (total : Nat) :
    ∀ (lines : List PyStr) (tried : Nat) (s : Sched),
      (rbLoop tgt total lines tried s).hashCalls = 0 := by
  intro lines
  induction lines with
  | nil => intro tried s; rfl
  | cons line rest ih =>
    intro tried s
    cases hok : runOk s with
    | false => simp [rbLoop, hok]
    | true =>
      by_cases hblank : pyStrip line = ([] : List Nat)
      · simp [rbLoop, hok, hblank, ih]
      · by_cases hcolon : (58 : Nat) ∈ pyStrip line
        · by_cases hmatch : pyLower (pySplitOnceColon (pyStrip line)).1 = tgt
          · simp [rbLoop, hok, hblank, hcolon, hmatch]
          · simp [rbLoop, hok, hblank, hcolon, hmatch, ih]
        · simp [rbLoop, hok, hblank, hcolon, ih]

/-- C7: the rainbow-table worker splits each stripped line on its first
colon (so the plaintext may contain colons), skips lines without a colon
without error, lowercases the digest half and compares it exactly with
the lowercased target, and never invokes a hash function (its model
contains no `get_hash` call and its hash-invocation count is 0): for
every file its match result equals the first-colon lookup described by
the spec; in particular the line
`"5f4dcc3b5aa765d61d8327deb882cf99:password"` matches the mixed-case
target `"5F4DCC3B5AA765D61D8327DEB882CF99"` with plaintext
`"password"`, a colon-free line is skipped, and a plaintext may itself
contain colons. -/
theorem C7_rainbow_parsing :
    (∀ (target : PyStr) (lines : List PyStr),
      (rbRun target lines none).found = rainbowLookupSpec target lines) ∧
    (∀ (target : PyStr) (lines : List PyStr) (s : Sched),
      (rbRun target lines s).hashCalls = 0) ∧
    (rbRun (pstr "5F4DCC3B5AA765D61D8327DEB882CF99")
      [pstr "noise", pstr "5f4dcc3b5aa765d61d8327deb882cf99:password"] none).found =
      some (pstr "password", pstr "5f4dcc3b5aa765d61d8327deb882cf99") ∧
    (rbRun (pstr "AA") [pstr "aa:pass:word"] none).found =
      some (pstr "pass:word", pstr "aa") := by
  refine ⟨?_, ?_, by decide, by decide⟩
  · intro target lines
    rw [rbRun, finishRun_found]
    exact rbLoop_found_eq target lines.length lines 0
  · intro target lines s
    rw [rbRun, finishRun_hashCalls]
    exact rbLoop_hashCalls (pyLower target) lines.length lines 0 s

lemma dictLoop_tried_all (env : HashEnv) (ht tgt : PyStr) (total : Nat) :
    ∀ (lines : List PyStr) (tried : Nat),
      (dictLoop env ht tgt total lines tried none).found = none →
      (dictLoop env ht tgt total lines tried none).tried = tried + lines.length := by
  intro lines
  induction lines with
  | nil => intro tried _; rfl
  | cons line rest ih =>
    intro tried hnone
    by_cases hblank : pyStrip line = ([] : List Nat)
    · simp only [dictLoop, runOk_none, if_true, tick_none, if_pos hblank] at hnone ⊢
      rw [ih (tried + 1) hnone, List.length_cons]
      omega
    · by_cases hmatch : get_hash env (pyStrip line) ht = tgt
      · exfalso
        simp [dictLoop, hblank, hmatch] at hnone
      · simp only [dictLoop, runOk_none, if_true, tick_none, if_neg hblank,
          if_neg hmatch] at hnone ⊢
        rw [ih (tried + 1) hnone, List.length_cons]
        omega

/-- C10: in the dictionary strategy, `tried_combinations` is incremented
for every raw line of the file — blank lines that never become
candidates included — and the throttled progress event is emitted before
the blank-line filter, so the progress denominator counts non-candidate
lines and a progress event from the reporting path can carry an empty
`currentCandidate`: every run that does not match counts exactly all
raw lines, and on the concrete file `["a", ""]` (target never matched)
the second, blank line triggers the `tried == total` reporting threshold
and emits `progress(100, "")` from the throttle path before being
filtered (the trace holds that event, the forced terminal
`progress(100, "")`, and `finished`, with only one hash call). -/
theorem C10_dictionary_blank_lines :
    (∀ (env : HashEnv) (ht target : PyStr) (lines : List PyStr),
      (dictRun env ht target lines none).outcome ≠ Outcome.matched →
      (dictRun env ht target lines none).tried = lines.length) ∧
    dictRun sampleEnv (pstr "MD5") (pstr "dead") [pstr "a", pstr ""] none =
      ⟨[Event.progress 100 [], Event.progress 100 [], Event.finished], 2,
        Outcome.exhausted, none, 1⟩ := by
  constructor
  · intro env ht target lines hout
    rw [dictRun] at hout ⊢
    cases hf : (dictLoop env ht (pyLower target) lines.length lines 0 none).found with
    | some r =>
      rw [finishRun_matched _ r hf] at hout
      exact absurd rfl hout
    | none =>
      rw [finishRun_tried]
      rw [dictLoop_tried_all env ht (pyLower target) lines.length lines 0 hf]
      omega
  · decide

/-- Witness for C10 on the concrete two-line file with a trailing blank
line. -/
theorem C10_dictionary_blank_lines_witness :
    (dictRun sampleEnv (pstr "MD5") (pstr "dead") [pstr "a", pstr ""] none).outcome ≠
      Outcome.matched ∧
    (dictRun sampleEnv (pstr "MD5") (pstr "dead") [pstr "a", pstr ""] none).tried = 2 :=
  ⟨by decide,
    C10_dictionary_blank_lines.1 sampleEnv (pstr "MD5") (pstr "dead")
      [pstr "a", pstr ""] (by decide)⟩
